import Mathlib

/-!
Verification of the Pinterest multi-topic scraper (`src/main.py`,
`src/nsfw_filter.py`) against its natural-language specification.

The development embeds the pure decision logic of the scraper —
fingerprinting (`get_pin_hash`), the text-safety filter (`is_text_safe`),
the per-candidate collection loop of `scrape_topic`, the retry/backoff
loop, the per-item download logic of `download_images_batch`, the
semaphore discipline of the scheduler, and the byte-level guard of
`NSFWDetector.is_nsfw_from_bytes` — as executable Lean definitions, and
proves or refutes the specified properties about them.
-/

set_option maxRecDepth 8000

namespace PinterestSearch

/-! ## MD5 (RFC 1321), used by `get_pin_hash` (`main.py` line 71):
`hashlib.md5(pin_id.encode()).hexdigest()[:16]`.
32-bit words are modelled as `Nat` reduced modulo `2 ^ 32`. -/

def pow32 : Nat := 4294967296

def add32 (a b : Nat) : Nat := (a + b) % pow32

def not32 (a : Nat) : Nat := Nat.xor a (pow32 - 1)

def rotl32 (a s : Nat) : Nat :=
  Nat.lor ((a <<< s) % pow32) (a >>> (32 - s))

/-- The 64 round constants `K[i] = floor(2^32 * |sin(i+1)|)` of MD5. -/
def md5K : List Nat :=
  [0xd76aa478, 0xe8c7b756, 0x242070db, 0xc1bdceee,
   0xf57c0faf, 0x4787c62a, 0xa8304613, 0xfd469501,
   0x698098d8, 0x8b44f7af, 0xffff5bb1, 0x895cd7be,
   0x6b901122, 0xfd987193, 0xa679438e, 0x49b40821,
   0xf61e2562, 0xc040b340, 0x265e5a51, 0xe9b6c7aa,
   0xd62f105d, 0x02441453, 0xd8a1e681, 0xe7d3fbc8,
   0x21e1cde6, 0xc33707d6, 0xf4d50d87, 0x455a14ed,
   0xa9e3e905, 0xfcefa3f8, 0x676f02d9, 0x8d2a4c8a,
   0xfffa3942, 0x8771f681, 0x6d9d6122, 0xfde5380c,
   0xa4beea44, 0x4bdecfa9, 0xf6bb4b60, 0xbebfbc70,
   0x289b7ec6, 0xeaa127fa, 0xd4ef3085, 0x04881d05,
   0xd9d4d039, 0xe6db99e5, 0x1fa27cf8, 0xc4ac5665,
   0xf4292244, 0x432aff97, 0xab9423a7, 0xfc93a039,
   0x655b59c3, 0x8f0ccc92, 0xffeff47d, 0x85845dd1,
   0x6fa87e4f, 0xfe2ce6e0, 0xa3014314, 0x4e0811a1,
   0xf7537e82, 0xbd3af235, 0x2ad7d2bb, 0xeb86d391]

/-- The per-round left-rotation amounts of MD5. -/
def md5S : List Nat :=
  [7, 12, 17, 22, 7, 12, 17, 22, 7, 12, 17, 22, 7, 12, 17, 22,
   5, 9, 14, 20, 5, 9, 14, 20, 5, 9, 14, 20, 5, 9, 14, 20,
   4, 11, 16, 23, 4, 11, 16, 23, 4, 11, 16, 23, 4, 11, 16, 23,
   6, 10, 15, 21, 6, 10, 15, 21, 6, 10, 15, 21, 6, 10, 15, 21]

def md5F (i b c d : Nat) : Nat :=
  if i < 16 then Nat.lor (Nat.land b c) (Nat.land (not32 b) d)
  else if i < 32 then Nat.lor (Nat.land d b) (Nat.land (not32 d) c)
  else if i < 48 then Nat.xor b (Nat.xor c d)
  else Nat.xor c (Nat.lor b (not32 d))

def md5G (i : Nat) : Nat :=
  if i < 16 then i
  else if i < 32 then (5 * i + 1) % 16
  else if i < 48 then (3 * i + 5) % 16
  else (7 * i) % 16

/-- The `j`-th little-endian 32-bit word of a 64-byte chunk. -/
def leWord (chunk : List Nat) (j : Nat) : Nat :=
  chunk.getD (4 * j) 0 + 256 * chunk.getD (4 * j + 1) 0 +
    65536 * chunk.getD (4 * j + 2) 0 + 16777216 * chunk.getD (4 * j + 3) 0

def md5Step (chunk : List Nat) (st : Nat × Nat × Nat × Nat) (i : Nat) :
    Nat × Nat × Nat × Nat :=
  let (a, b, c, d) := st
  let f := (md5F i b c d + a + md5K.getD i 0 + leWord chunk (md5G i)) % pow32
  (d, add32 b (rotl32 f (md5S.getD i 0)), b, c)

def md5Chunk (st0 : Nat × Nat × Nat × Nat) (chunk : List Nat) :
    Nat × Nat × Nat × Nat :=
  let (a, b, c, d) := (List.range 64).foldl (md5Step chunk) st0
  let (a0, b0, c0, d0) := st0
  (add32 a0 a, add32 b0 b, add32 c0 c, add32 d0 d)

/-- `n` bytes of `x`, little-endian. -/
def leBytes : Nat → Nat → List Nat
  | 0, _ => []
  | n + 1, x => x % 256 :: leBytes n (x / 256)

/-- MD5 padding: a `0x80` byte, zeros to 56 mod 64, then the 64-bit
little-endian bit length. -/
def md5Pad (msg : List Nat) : List Nat :=
  let len := msg.length
  let zeros := (56 + 64 - ((len + 1) % 64)) % 64
  msg ++ [128] ++ List.replicate zeros 0 ++ leBytes 8 ((len * 8) % (2 ^ 64))

def chunks64Go : Nat → List Nat → List (List Nat)
  | 0, _ => []
  | _, [] => []
  | fuel + 1, a :: l => ((a :: l).take 64) :: chunks64Go fuel ((a :: l).drop 64)

def chunks64 (l : List Nat) : List (List Nat) := chunks64Go l.length l

/-- MD5 digest (16 bytes) of a byte sequence. -/
def md5Bytes (msg : List Nat) : List Nat :=
  let (a, b, c, d) := (chunks64 (md5Pad msg)).foldl md5Chunk
    (0x67452301, 0xefcdab89, 0x98badcfe, 0x10325476)
  leBytes 4 a ++ leBytes 4 b ++ leBytes 4 c ++ leBytes 4 d

def hexDigit (n : Nat) : Char := "0123456789abcdef".data.getD n '0'

def hexByte (b : Nat) : List Char := [hexDigit (b / 16), hexDigit (b % 16)]

/-- Lowercase hex digest string, as Python's `hexdigest()`. -/
def md5hex (msg : List Nat) : String :=
  String.mk ((md5Bytes msg).map hexByte).flatten

/-- UTF-8 encoding of one character, as Python's `str.encode()`. -/
def utf8Char (c : Char) : List Nat :=
  let n := c.toNat
  if n < 128 then [n]
  else if n < 2048 then [192 + n / 64, 128 + n % 64]
  else if n < 65536 then [224 + n / 4096, 128 + (n / 64) % 64, 128 + n % 64]
  else [240 + n / 262144, 128 + (n / 4096) % 64, 128 + (n / 64) % 64, 128 + n % 64]

def strUtf8 (s : String) : List Nat := (s.data.map utf8Char).flatten

/-- Python string slicing `s[:n]` (by code points). -/
def strTake (s : String) (n : Nat) : String := String.mk (s.data.take n)

/-- `main.py` lines 69-71: `get_pin_hash(pin_id)` returns
`hashlib.md5(pin_id.encode()).hexdigest()[:16]`. -/
def get_pin_hash (pin_id : String) : String :=
  strTake (md5hex (strUtf8 pin_id)) 16

/-- RFC 1321 test vector: MD5 of the empty message. -/
theorem md5hex_empty_vector : md5hex (strUtf8 "") = "d41d8cd98f00b204e9800998ecf8427e" := by
  decide

/-- RFC 1321 test vector: MD5 of `abc`. -/
theorem md5hex_abc_vector : md5hex (strUtf8 "abc") = "900150983cd24fb0d6963f7d28e17f72" := by
  decide

/-- Known digest: the fingerprint of pin id `123` is the first 16 hex
characters of `202cb962ac59075b964b07152d234b70`. -/
theorem get_pin_hash_123_vector : get_pin_hash "123" = "202cb962ac59075b" := by
  decide

/-! ## Text-safety filter (`main.py` lines 42-46 and 64-67) -/

/-- `main.py` lines 42-46: the fixed keyword blocklist. -/
def NSFW_BLOCKLIST : List String :=
  ["nude", "naked", "sexy", "hot", "adult", "porn", "xxx", "erotic", "18+", "onlyfans",
   "bikini", "lingerie", "booty", "ass", "tits", "boobs", "cleavage", "thong", "nsfw",
   "sex", "topless", "underwear", "braless", "see-through", "explicit", "fetish"]

/-- Does `hay` start with `needle`? (helper for Python's `in` operator) -/
def leadMatch : List Char → List Char → Bool
  | [], _ => true
  | _ :: _, [] => false
  | a :: as, b :: bs => a == b && leadMatch as bs

/-- Does `needle` occur contiguously in the haystack? (Python's `in` on `str`) -/
def subOccurs (needle : List Char) : List Char → Bool
  | [] => needle.isEmpty
  | b :: t => leadMatch needle (b :: t) || subOccurs needle t

def strOccurs (needle hay : String) : Bool := subOccurs needle.data hay.data

/-- ASCII lowercasing of one character, as Python's `str.lower()` acts on
the ASCII range (the blocklist keywords are all ASCII). -/
def lowerChar (c : Char) : Char :=
  if 65 ≤ c.toNat ∧ c.toNat ≤ 90 then Char.ofNat (c.toNat + 32) else c

def strLower (s : String) : String := String.mk (s.data.map lowerChar)

/-- `main.py` lines 64-67: `is_text_safe(title, description)` lowercases
`title + " " + description` and rejects when any blocklist keyword occurs
as a substring. -/
def is_text_safe (title description : String) : Bool :=
  let text := strLower (title ++ " " ++ description)
  ! NSFW_BLOCKLIST.any (fun kw => strOccurs kw text)

theorem leadMatch_iff (n : List Char) : ∀ h, leadMatch n h = true ↔ ∃ t, h = n ++ t := by
  induction n with
  | nil => intro h; simp [leadMatch]
  | cons a as ih =>
    intro h
    cases h with
    | nil => simp [leadMatch]
    | cons b bs =>
      simp only [leadMatch, Bool.and_eq_true, beq_iff_eq, ih bs]
      constructor
      · rintro ⟨hab, t, ht⟩
        exact ⟨t, by rw [hab, ht]; rfl⟩
      · rintro ⟨t, ht⟩
        injection ht with h1 h2
        exact ⟨h1.symm, t, h2⟩

theorem subOccurs_iff (n : List Char) : ∀ h, subOccurs n h = true ↔ ∃ u v, h = u ++ n ++ v := by
  intro h
  induction h with
  | nil =>
    simp only [subOccurs]
    constructor
    · intro he
      exact ⟨[], [], by simp [List.isEmpty_iff.mp he]⟩
    · rintro ⟨u, v, hv⟩
      have h0 : u ++ n ++ v = [] := hv.symm
      simp only [List.append_eq_nil] at h0
      simp [List.isEmpty_iff, h0.1.2]
  | cons b t ih =>
    simp only [subOccurs, Bool.or_eq_true, ih, leadMatch_iff]
    constructor
    · rintro (⟨v, hv⟩ | ⟨u, v, huv⟩)
      · exact ⟨[], v, by simpa using hv⟩
      · exact ⟨b :: u, v, by simp [huv]⟩
    · rintro ⟨u, v, huv⟩
      cases u with
      | nil => exact Or.inl ⟨v, by simpa using huv⟩
      | cons x u' =>
        injection huv with h1 h2
        exact Or.inr ⟨u', v, h2⟩

/-- **C4**: the text-safety filter is the pure function that lowercases the
(space-joined) concatenation of title and description and rejects exactly
when some blocklist keyword occurs as a contiguous substring; its value on
the three documented inputs, including the substring false positive of
`ass` inside `ASSessment`. -/
theorem claim_c4_text_filter :
    (∀ t d, is_text_safe t d = false ↔
      ∃ kw ∈ NSFW_BLOCKLIST, ∃ u v,
        (strLower (t ++ " " ++ d)).data = u ++ kw.data ++ v) ∧
    is_text_safe "Dark Academia Study" "" = true ∧
    is_text_safe "hot nsfw pics" "" = false ∧
    is_text_safe "ASSessment tips" "" = false := by
  refine ⟨?_, by decide, by decide, by decide⟩
  intro t d
  simp only [is_text_safe, Bool.not_eq_false', List.any_eq_true, strOccurs, subOccurs_iff]

/-! ## Candidate processing loop of `scrape_topic` (`main.py` lines 279-333) -/

/-- One raw candidate as extracted from a pin element (`main.py` lines
283-298); `pin_id` is the already-derived source item id. -/
structure Candidate where
  pin_id : String
  title : String
  description : String
  img_src : String
  pin_url : String
deriving DecidableEq, Repr

/-- The accepted-record dict built at `main.py` lines 312-321. -/
structure PinData where
  pin_id : String
  title : String
  description : String
  image_url : String
  pin_url : String
  category : String
  topic : String
  scraped_at : String
deriving DecidableEq, Repr

def mkPinData (category topic now : String) (c : Candidate) : PinData :=
  { pin_id := c.pin_id, title := c.title, description := c.description,
    image_url := c.img_src,
    pin_url := if c.pin_url ≠ "" then "https://www.pinterest.com" ++ c.pin_url else "",
    category := category, topic := topic, scraped_at := now }

/-- `main.py` lines 300-324: the per-candidate pipeline of `scrape_topic`,
folded over the sequence of candidates the loop processes.  State:
`collected_pins` and the shared `collected_hashes` (a set, modelled as a
duplicate-free list).  Order as in the source: extraction guard
(line 300), fingerprint (301), dedup membership test (304-305), text
filter (308-310), append + insert (323-324). -/
def processCandidates (category topic now : String) :
    List Candidate → List PinData → List String → List PinData × List String
  | [], pins, hashes => (pins, hashes)
  | c :: rest, pins, hashes =>
    if c.img_src ≠ "" ∧ c.pin_id ≠ "" then
      let pin_hash := get_pin_hash c.pin_id
      if pin_hash ∈ hashes then
        processCandidates category topic now rest pins hashes
      else if is_text_safe c.title c.description then
        processCandidates category topic now rest
          (pins ++ [mkPinData category topic now c]) (hashes ++ [pin_hash])
      else
        processCandidates category topic now rest pins hashes
    else
      processCandidates category topic now rest pins hashes

/-- A candidate that passes the extraction guard (line 300) and the text
filter: a "safe candidate seen" in the sense of the dedup claim. -/
def goodCand (c : Candidate) : Bool :=
  if c.img_src ≠ "" ∧ c.pin_id ≠ "" then is_text_safe c.title c.description else false

/-- The pin ids of the safe candidates, in processing order. -/
def goodIds (cs : List Candidate) : List String :=
  (cs.filter goodCand).map Candidate.pin_id

theorem goodIds_cons (c : Candidate) (rest : List Candidate) :
    goodIds (c :: rest) =
      if goodCand c then c.pin_id :: goodIds rest else goodIds rest := by
  by_cases h : goodCand c <;> simp [goodIds, List.filter_cons, h]

/-- Accepted records never repeat a pin id: once accepted, the id's
fingerprint is in the hash set and the membership test rejects any later
candidate with the same id. -/
theorem process_nodup (category topic now : String) :
    ∀ (cs : List Candidate) (pins : List PinData) (hs : List String),
    (pins.map PinData.pin_id).Nodup →
    (∀ p ∈ pins, get_pin_hash p.pin_id ∈ hs) →
    (((processCandidates category topic now cs pins hs).1).map PinData.pin_id).Nodup := by
  intro cs
  induction cs with
  | nil => intro pins hs h1 _; simpa [processCandidates] using h1
  | cons c rest ih =>
    intro pins hs h1 h2
    by_cases hg : c.img_src ≠ "" ∧ c.pin_id ≠ ""
    · by_cases hm : get_pin_hash c.pin_id ∈ hs
      · simpa [processCandidates, hg, hm] using ih pins hs h1 h2
      · by_cases hsafe : is_text_safe c.title c.description
        · have hnotin : c.pin_id ∉ pins.map PinData.pin_id := by
            intro hmem
            obtain ⟨p, hp, hpe⟩ := List.mem_map.mp hmem
            exact hm (hpe ▸ h2 p hp)
          have h1' : ((pins ++ [mkPinData category topic now c]).map PinData.pin_id).Nodup := by
            rw [List.map_append]
            refine List.Nodup.append h1 (by simp) ?_
            intro x hx hx2
            simp only [mkPinData, List.map_cons, List.map_nil, List.mem_singleton] at hx2
            exact hnotin (hx2 ▸ hx)
          have h2' : ∀ p ∈ pins ++ [mkPinData category topic now c],
              get_pin_hash p.pin_id ∈ hs ++ [get_pin_hash c.pin_id] := by
            intro p hp
            rcases List.mem_append.mp hp with hp | hp
            · exact List.mem_append.mpr (Or.inl (h2 p hp))
            · simp only [List.mem_singleton] at hp
              subst hp
              simp [mkPinData]
          simpa [processCandidates, hg, hm, hsafe] using
            ih (pins ++ [mkPinData category topic now c])
              (hs ++ [get_pin_hash c.pin_id]) h1' h2'
        · simpa [processCandidates, hg, hm, hsafe] using ih pins hs h1 h2
    · simpa [processCandidates, hg] using ih pins hs h1 h2

theorem mem_goodIds_cons_of_mem {a : String} {c : Candidate} {rest : List Candidate} :
    a ∈ goodIds rest → a ∈ goodIds (c :: rest) := by
  intro h
  rw [goodIds_cons]
  by_cases hc : goodCand c <;> simp [hc, h]

/-- Upper bound: the loop appends at most one record per distinct safe
pin id whose fingerprint is not already in the hash set. -/
theorem process_length_le (category topic now : String) :
    ∀ (cs : List Candidate) (pins : List PinData) (hs : List String),
    ((processCandidates category topic now cs pins hs).1).length ≤
      pins.length +
        ((goodIds cs).toFinset.filter (fun id => get_pin_hash id ∉ hs)).card := by
  intro cs
  induction cs with
  | nil => intro pins hs; simp [processCandidates]
  | cons c rest ih =>
    intro pins hs
    by_cases hg : c.img_src ≠ "" ∧ c.pin_id ≠ ""
    · by_cases hm : get_pin_hash c.pin_id ∈ hs
      · by_cases hsafe : is_text_safe c.title c.description
        · have hgood : goodCand c = true := by simp [goodCand, hg, hsafe]
          have hfix :
              ((goodIds (c :: rest)).toFinset.filter fun id => get_pin_hash id ∉ hs) =
              ((goodIds rest).toFinset.filter fun id => get_pin_hash id ∉ hs) := by
            rw [goodIds_cons, if_pos hgood, List.toFinset_cons, Finset.filter_insert,
              if_neg (not_not_intro hm)]
          have h1 := ih pins hs
          rw [← hfix] at h1
          simpa [processCandidates, hg, hm] using h1
        · have hgood : goodCand c = false := by simp [goodCand, hg, hsafe]
          have h1 := ih pins hs
          have hid : goodIds (c :: rest) = goodIds rest := by
            rw [goodIds_cons, if_neg (by simp [hgood])]
          rw [← hid] at h1
          simpa [processCandidates, hg, hm] using h1
      · by_cases hsafe : is_text_safe c.title c.description
        · have hgood : goodCand c = true := by simp [goodCand, hg, hsafe]
          have step := ih (pins ++ [mkPinData category topic now c])
            (hs ++ [get_pin_hash c.pin_id])
          have hsub :
              ((goodIds rest).toFinset.filter
                  fun id => get_pin_hash id ∉ hs ++ [get_pin_hash c.pin_id]) ⊆
              ((goodIds rest).toFinset.filter fun id => get_pin_hash id ∉ hs) := by
            intro x hx
            simp only [Finset.mem_filter, List.mem_append, List.mem_singleton] at hx ⊢
            exact ⟨hx.1, fun hmem => hx.2 (Or.inl hmem)⟩
          have hidnot : c.pin_id ∉
              ((goodIds rest).toFinset.filter
                fun id => get_pin_hash id ∉ hs ++ [get_pin_hash c.pin_id]) := by
            simp [Finset.mem_filter]
          have e1 : ((goodIds rest).toFinset.filter
                fun id => get_pin_hash id ∉ hs ++ [get_pin_hash c.pin_id]).card + 1 =
              (insert c.pin_id ((goodIds rest).toFinset.filter
                fun id => get_pin_hash id ∉ hs ++ [get_pin_hash c.pin_id])).card :=
            (Finset.card_insert_of_not_mem hidnot).symm
          have e2 : (insert c.pin_id ((goodIds rest).toFinset.filter
                fun id => get_pin_hash id ∉ hs ++ [get_pin_hash c.pin_id])).card ≤
              (insert c.pin_id ((goodIds rest).toFinset.filter
                fun id => get_pin_hash id ∉ hs)).card :=
            Finset.card_le_card (Finset.insert_subset_insert _ hsub)
          have hfilter :
              ((goodIds (c :: rest)).toFinset.filter fun id => get_pin_hash id ∉ hs) =
              insert c.pin_id
                ((goodIds rest).toFinset.filter fun id => get_pin_hash id ∉ hs) := by
            rw [goodIds_cons, if_pos hgood, List.toFinset_cons, Finset.filter_insert,
              if_pos hm]
          have ls : (processCandidates category topic now (c :: rest) pins hs).1.length =
              (processCandidates category topic now rest
                (pins ++ [mkPinData category topic now c])
                (hs ++ [get_pin_hash c.pin_id])).1.length := by
            simp [processCandidates, hg, hm, hsafe]
          rw [ls, hfilter]
          simp only [List.length_append, List.length_cons, List.length_nil] at step
          omega
        · have hgood : goodCand c = false := by simp [goodCand, hg, hsafe]
          have h1 := ih pins hs
          have hid : goodIds (c :: rest) = goodIds rest := by
            rw [goodIds_cons, if_neg (by simp [hgood])]
          rw [← hid] at h1
          simpa [processCandidates, hg, hm, hsafe] using h1
    · have hgood : goodCand c = false := by simp [goodCand, hg]
      have h1 := ih pins hs
      have hid : goodIds (c :: rest) = goodIds rest := by
        rw [goodIds_cons, if_neg (by simp [hgood])]
      rw [← hid] at h1
      simpa [processCandidates, hg] using h1

/-- Exact count: when the fingerprint is injective on the ids in play,
the loop accepts exactly one record per distinct safe pin id not already
accepted (`acc` is the list of previously accepted ids whose fingerprints
make up the incoming hash set). -/
theorem process_length_eq (category topic now : String) :
    ∀ (cs : List Candidate) (acc : List String) (pins : List PinData),
    (∀ a, (a ∈ goodIds cs ∨ a ∈ acc) → ∀ b, (b ∈ goodIds cs ∨ b ∈ acc) →
      get_pin_hash a = get_pin_hash b → a = b) →
    ((processCandidates category topic now cs pins (acc.map get_pin_hash)).1).length
      = pins.length + ((goodIds cs).toFinset \ acc.toFinset).card := by
  intro cs
  induction cs with
  | nil => intro acc pins _; simp [processCandidates, goodIds]
  | cons c rest ih =>
    intro acc pins hinj
    have hinj' : ∀ a, (a ∈ goodIds rest ∨ a ∈ acc) → ∀ b, (b ∈ goodIds rest ∨ b ∈ acc) →
        get_pin_hash a = get_pin_hash b → a = b :=
      fun a ha b hb => hinj a (ha.imp_left mem_goodIds_cons_of_mem)
        b (hb.imp_left mem_goodIds_cons_of_mem)
    by_cases hg : c.img_src ≠ "" ∧ c.pin_id ≠ ""
    · by_cases hm : get_pin_hash c.pin_id ∈ acc.map get_pin_hash
      · by_cases hsafe : is_text_safe c.title c.description
        · have hgood : goodCand c = true := by simp [goodCand, hg, hsafe]
          obtain ⟨a, ha, hae⟩ := List.mem_map.mp hm
          have hmemid : c.pin_id ∈ goodIds (c :: rest) := by
            rw [goodIds_cons, if_pos hgood]
            exact List.mem_cons_self _ _
          have haid : a = c.pin_id := hinj a (Or.inr ha) c.pin_id (Or.inl hmemid) hae
          have hacc : c.pin_id ∈ acc := haid ▸ ha
          have hproc : (processCandidates category topic now (c :: rest) pins
                (acc.map get_pin_hash)).1 =
              (processCandidates category topic now rest pins (acc.map get_pin_hash)).1 := by
            simp [processCandidates, hg, hm]
          have hset : (goodIds (c :: rest)).toFinset \ acc.toFinset =
              (goodIds rest).toFinset \ acc.toFinset := by
            rw [goodIds_cons, if_pos hgood, List.toFinset_cons]
            exact Finset.insert_sdiff_of_mem _ (List.mem_toFinset.mpr hacc)
          rw [hproc, hset]
          exact ih acc pins hinj'
        · have hgood : goodCand c = false := by simp [goodCand, hg, hsafe]
          have hid : goodIds (c :: rest) = goodIds rest := by
            rw [goodIds_cons, if_neg (by simp [hgood])]
          have hproc : (processCandidates category topic now (c :: rest) pins
                (acc.map get_pin_hash)).1 =
              (processCandidates category topic now rest pins (acc.map get_pin_hash)).1 := by
            simp [processCandidates, hg, hm]
          rw [hproc, hid]
          exact ih acc pins hinj'
      · by_cases hsafe : is_text_safe c.title c.description
        · have hgood : goodCand c = true := by simp [goodCand, hg, hsafe]
          have hmemid : c.pin_id ∈ goodIds (c :: rest) := by
            rw [goodIds_cons, if_pos hgood]
            exact List.mem_cons_self _ _
          have hnacc : c.pin_id ∉ acc := fun h => hm (List.mem_map_of_mem _ h)
          have hdom : ∀ a, (a ∈ goodIds rest ∨ a ∈ acc ++ [c.pin_id]) →
              (a ∈ goodIds (c :: rest) ∨ a ∈ acc) := by
            intro a ha
            rcases ha with ha | ha
            · exact Or.inl (mem_goodIds_cons_of_mem ha)
            · rcases List.mem_append.mp ha with ha | ha
              · exact Or.inr ha
              · simp only [List.mem_singleton] at ha
                subst ha
                exact Or.inl hmemid
          have hinj2 : ∀ a, (a ∈ goodIds rest ∨ a ∈ acc ++ [c.pin_id]) →
              ∀ b, (b ∈ goodIds rest ∨ b ∈ acc ++ [c.pin_id]) →
              get_pin_hash a = get_pin_hash b → a = b :=
            fun a ha b hb => hinj a (hdom a ha) b (hdom b hb)
          have hproc : (processCandidates category topic now (c :: rest) pins
                (acc.map get_pin_hash)).1 =
              (processCandidates category topic now rest
                (pins ++ [mkPinData category topic now c])
                ((acc ++ [c.pin_id]).map get_pin_hash)).1 := by
            simp [processCandidates, hg, hm, hsafe, List.map_append]
          have IH := ih (acc ++ [c.pin_id]) (pins ++ [mkPinData category topic now c]) hinj2
          rw [hproc, IH]
          have hS : (goodIds (c :: rest)).toFinset =
              insert c.pin_id (goodIds rest).toFinset := by
            rw [goodIds_cons, if_pos hgood, List.toFinset_cons]
          have haccF : (acc ++ [c.pin_id]).toFinset = insert c.pin_id acc.toFinset := by
            ext x
            simp [List.mem_append, or_comm]
          rw [hS, haccF]
          have hidnacc : c.pin_id ∉ acc.toFinset := by simpa using hnacc
          have e1 : insert c.pin_id (goodIds rest).toFinset \ acc.toFinset =
              insert c.pin_id ((goodIds rest).toFinset \ acc.toFinset) := by
            ext x
            simp only [Finset.mem_sdiff, Finset.mem_insert]
            constructor
            · rintro ⟨rfl | hx, hnx⟩
              · exact Or.inl rfl
              · exact Or.inr ⟨hx, hnx⟩
            · rintro (rfl | ⟨hx, hnx⟩)
              · exact ⟨Or.inl rfl, hidnacc⟩
              · exact ⟨Or.inr hx, hnx⟩
          have e2 : (goodIds rest).toFinset \ insert c.pin_id acc.toFinset =
              ((goodIds rest).toFinset \ acc.toFinset).erase c.pin_id := by
            ext x
            simp only [Finset.mem_sdiff, Finset.mem_insert, Finset.mem_erase]
            tauto
          rw [e1, e2]
          have e3 : (insert c.pin_id ((goodIds rest).toFinset \ acc.toFinset)).card =
              (((goodIds rest).toFinset \ acc.toFinset).erase c.pin_id).card + 1 := by
            by_cases hidX : c.pin_id ∈ (goodIds rest).toFinset \ acc.toFinset
            · rw [Finset.insert_eq_self.mpr hidX, Finset.card_erase_of_mem hidX]
              have hpos : 0 < ((goodIds rest).toFinset \ acc.toFinset).card :=
                Finset.card_pos.mpr ⟨_, hidX⟩
              omega
            · rw [Finset.card_insert_of_not_mem hidX, Finset.erase_eq_of_not_mem hidX]
          rw [e3]
          simp only [List.length_append, List.length_cons, List.length_nil]
          omega
        · have hgood : goodCand c = false := by simp [goodCand, hg, hsafe]
          have hid : goodIds (c :: rest) = goodIds rest := by
            rw [goodIds_cons, if_neg (by simp [hgood])]
          have hproc : (processCandidates category topic now (c :: rest) pins
                (acc.map get_pin_hash)).1 =
              (processCandidates category topic now rest pins (acc.map get_pin_hash)).1 := by
            simp [processCandidates, hg, hm, hsafe]
          rw [hproc, hid]
          exact ih acc pins hinj'
    · have hgood : goodCand c = false := by simp [goodCand, hg]
      have hid : goodIds (c :: rest) = goodIds rest := by
        rw [goodIds_cons, if_neg (by simp [hgood])]
      have hproc : (processCandidates category topic now (c :: rest) pins
            (acc.map get_pin_hash)).1 =
          (processCandidates category topic now rest pins (acc.map get_pin_hash)).1 := by
        simp [processCandidates, hg]
      rw [hproc, hid]
      exact ih acc pins hinj'

/-- **C1**: over any candidate sequence processed against one shared
`collected_hashes` set starting empty, the accepted records carry
pairwise-distinct pin ids (a second candidate with the same `pin_id` is
always rejected by the membership test on its 16-hex-character MD5-prefix
fingerprint, a deterministic function of `pin_id`); the number of
accepted records never exceeds the number of distinct pin ids among the
safe candidates seen, and equals it whenever the fingerprint is injective
on those ids (an MD5-prefix collision being the only possible shortfall,
which the spec tolerates as probabilistically negligible). -/
theorem claim_c1_dedup_invariant (category topic now : String) (cs : List Candidate) :
    (((processCandidates category topic now cs [] []).1).map PinData.pin_id).Nodup ∧
    ((processCandidates category topic now cs [] []).1).length ≤
      (goodIds cs).toFinset.card ∧
    ((∀ a ∈ goodIds cs, ∀ b ∈ goodIds cs, get_pin_hash a = get_pin_hash b → a = b) →
      ((processCandidates category topic now cs [] []).1).length =
        (goodIds cs).toFinset.card) := by
  refine ⟨process_nodup category topic now cs [] [] (by simp) (by simp), ?_, ?_⟩
  · have h := process_length_le category topic now cs [] []
    simpa using h
  · intro hinj
    have h := process_length_eq category topic now cs [] []
      (fun a ha b hb => hinj a (ha.resolve_right (by simp))
        b (hb.resolve_right (by simp)))
    simpa using h

/-- Concrete candidate list for the dedup witness: two candidates share
pin id `123`, a third has pin id `456`. -/
def demoCands : List Candidate :=
  [⟨"123", "library aesthetic", "cozy", "http://img/a.jpg", "/pin/123/"⟩,
   ⟨"123", "library aesthetic", "cozy", "http://img/a.jpg", "/pin/123/"⟩,
   ⟨"456", "desk setup", "", "http://img/b.jpg", "/pin/456/"⟩]

set_option maxRecDepth 8000 in
/-- Witness for C1: on `demoCands` the fingerprint is injective and the
loop accepts exactly 2 records — one per distinct pin id. -/
theorem claim_c1_dedup_invariant_witness :
    ((processCandidates "STUDY" "library" "2024" demoCands [] []).1).length =
      (goodIds demoCands).toFinset.card ∧
    ((processCandidates "STUDY" "library" "2024" demoCands [] []).1).length = 2 :=
  ⟨(claim_c1_dedup_invariant "STUDY" "library" "2024" demoCands).2.2 (by decide),
   by decide⟩

/-! ## C8: per-candidate processing order (`main.py` lines 300-324) -/

/-- Observable per-candidate events of the collection loop, in the order
the source evaluates them. -/
inductive PinEvent where
  | hashComputed (pin_id : String)
  | dedupChecked (pin_id : String) (dup : Bool)
  | safetyChecked (pin_id : String) (safe : Bool)
  | accepted (pin_id : String)
deriving DecidableEq, Repr

/-- `processCandidates` instrumented with the evaluation-order trace of
the source: fingerprint (line 301), dedup membership test (line 304),
text filter (line 308), append+insert (lines 323-324). -/
def processCandidatesTr (category topic now : String) :
    List Candidate → List PinData → List String → List PinEvent →
      List PinData × List String × List PinEvent
  | [], pins, hashes, tr => (pins, hashes, tr)
  | c :: rest, pins, hashes, tr =>
    if c.img_src ≠ "" ∧ c.pin_id ≠ "" then
      let pin_hash := get_pin_hash c.pin_id
      let tr1 := tr ++ [PinEvent.hashComputed c.pin_id]
      if pin_hash ∈ hashes then
        processCandidatesTr category topic now rest pins hashes
          (tr1 ++ [PinEvent.dedupChecked c.pin_id true])
      else
        let tr2 := tr1 ++ [PinEvent.dedupChecked c.pin_id false]
        if is_text_safe c.title c.description then
          processCandidatesTr category topic now rest
            (pins ++ [mkPinData category topic now c]) (hashes ++ [pin_hash])
            (tr2 ++ [PinEvent.safetyChecked c.pin_id true, PinEvent.accepted c.pin_id])
        else
          processCandidatesTr category topic now rest pins hashes
            (tr2 ++ [PinEvent.safetyChecked c.pin_id false])
    else
      processCandidatesTr category topic now rest pins hashes tr

/-- The per-candidate pipeline in the order the spec's sentence states it:
text filter first, then fingerprint and test-and-insert.  Follows the
spec's words, for comparison with the source-order `processCandidates`. -/
def processSpecOrder (category topic now : String) :
    List Candidate → List PinData → List String → List PinData × List String
  | [], pins, hashes => (pins, hashes)
  | c :: rest, pins, hashes =>
    if c.img_src ≠ "" ∧ c.pin_id ≠ "" then
      if is_text_safe c.title c.description then
        let fp := get_pin_hash c.pin_id
        if fp ∈ hashes then
          processSpecOrder category topic now rest pins hashes
        else
          processSpecOrder category topic now rest
            (pins ++ [mkPinData category topic now c]) (hashes ++ [fp])
      else
        processSpecOrder category topic now rest pins hashes
    else
      processSpecOrder category topic now rest pins hashes

/-- A candidate whose text is rejected by the filter (keyword `hot`). -/
def hotCand : Candidate :=
  ⟨"777", "hot stuff", "", "http://img/c.jpg", "/pin/777/"⟩

/-- **C8 counterexample**: the code computes the fingerprint and runs the
dedup membership test on a candidate whose text is NOT safe — the trace
puts `hashComputed` and `dedupChecked` before `safetyChecked` — so the
claimed order (text filter first, fingerprint only if the text is safe)
is false on the code. -/
theorem claim_c8_counterexample :
    is_text_safe hotCand.title hotCand.description = false ∧
    (processCandidatesTr "S" "t" "n" [hotCand] [] [] []).2.2 =
      [PinEvent.hashComputed "777", PinEvent.dedupChecked "777" false,
       PinEvent.safetyChecked "777" false] :=
  ⟨by decide, by decide⟩

/-- **C8 (amended)**: per candidate the code evaluates the fingerprint and
the dedup membership test FIRST and the text filter second, appending the
record and inserting its hash only when both pass; because the membership
test does not insert, the accepted records and the final hash set
coincide with those of the spec's text-filter-first order. -/
theorem claim_c8_processing_order (category topic now : String) :
    (∀ cs pins hashes,
      processCandidates category topic now cs pins hashes =
        processSpecOrder category topic now cs pins hashes) ∧
    (∀ (c : Candidate) (pins : List PinData) (hashes : List String) (tr : List PinEvent),
      c.img_src ≠ "" → c.pin_id ≠ "" → get_pin_hash c.pin_id ∉ hashes →
      (processCandidatesTr category topic now [c] pins hashes tr).2.2 =
        tr ++ [PinEvent.hashComputed c.pin_id, PinEvent.dedupChecked c.pin_id false,
               PinEvent.safetyChecked c.pin_id (is_text_safe c.title c.description)] ++
          (if is_text_safe c.title c.description then [PinEvent.accepted c.pin_id]
           else [])) := by
  constructor
  · intro cs
    induction cs with
    | nil => intro pins hashes; rfl
    | cons c rest ih =>
      intro pins hashes
      by_cases hg : c.img_src ≠ "" ∧ c.pin_id ≠ ""
      · by_cases hm : get_pin_hash c.pin_id ∈ hashes
        · by_cases hsafe : is_text_safe c.title c.description <;>
            simp [processCandidates, processSpecOrder, hg, hm, hsafe, ih]
        · by_cases hsafe : is_text_safe c.title c.description <;>
            simp [processCandidates, processSpecOrder, hg, hm, hsafe, ih]
      · simp [processCandidates, processSpecOrder, hg, ih]
  · intro c pins hashes tr h1 h2 hm
    by_cases hsafe : is_text_safe c.title c.description <;>
      simp [processCandidatesTr, h1, h2, hm, hsafe]

/-- Witness for the amended C8 at a fresh, safe candidate: the trace runs
fingerprint, dedup test, safety test, accept, in source order. -/
theorem claim_c8_processing_order_witness :
    (processCandidatesTr "S" "t" "n"
        [⟨"123", "library", "", "http://img/a.jpg", "/pin/123/"⟩] [] [] []).2.2 =
      [PinEvent.hashComputed "123", PinEvent.dedupChecked "123" false,
       PinEvent.safetyChecked "123" true, PinEvent.accepted "123"] := by
  have h := (claim_c8_processing_order "S" "t" "n").2
    ⟨"123", "library", "", "http://img/a.jpg", "/pin/123/"⟩ [] [] []
    (by decide) (by decide) (by decide)
  rw [h]
  decide

/-! ## Retry/backoff loop of `scrape_topic` (`main.py` lines 195-365) -/

/-- Behaviour of one attempt of the retry loop.
`fails`: an exception escapes to the handler at line 356 before any
candidate is processed (launch/goto failure).
`yields cs`: the attempt processes `cs` — its internal errors are caught
at lines 331-333 and 346-347 — and reaches the break check at 352-354.
`yieldsRaises cs`: the attempt processes `cs` but an exception then
escapes before the break check — e.g. `await browser.close()` in the
`finally` at line 350 (or the playwright teardown) raising — so control
reaches the handler at 356 with the already-appended records kept in the
shared `collected_pins`/`collected_hashes`. -/
inductive AttemptOutcome where
  | fails
  | yields (cands : List Candidate)
  | yieldsRaises (cands : List Candidate)
deriving DecidableEq, Repr

/-- State of the retry loop: `collected_pins`, `collected_hashes`, plus
instrumentation counting attempts entered and seconds slept in backoff. -/
structure RetryState where
  pins : List PinData
  hashes : List String
  attemptsMade : Nat
  totalWait : Nat
deriving DecidableEq, Repr

/-- `main.py` lines 197-363: the `for attempt in range(max_retries)` body.
`remaining` counts the loop iterations left (`remaining + a = max_retries`
when started from `scrape_topic_model`).  On an exception the handler
sleeps `(attempt + 1) * base` seconds iff `attempt < max_retries - 1`
(lines 358-361); after a completed attempt the loop breaks iff
`collected_pins` is nonempty (lines 352-354). -/
def scrapeGo (category topic now : String) (base maxRetries : Nat)
    (attempts : Nat → AttemptOutcome) : Nat → Nat → RetryState → RetryState
  | 0, _, st => st
  | remaining + 1, a, st =>
    match attempts a with
    | AttemptOutcome.fails =>
      let wait := if a < maxRetries - 1 then (a + 1) * base else 0
      scrapeGo category topic now base maxRetries attempts remaining (a + 1)
        { st with attemptsMade := st.attemptsMade + 1, totalWait := st.totalWait + wait }
    | AttemptOutcome.yields cs =>
      let res := processCandidates category topic now cs st.pins st.hashes
      let st' : RetryState := { pins := res.1, hashes := res.2,
                                attemptsMade := st.attemptsMade + 1,
                                totalWait := st.totalWait }
      if res.1 = [] then
        scrapeGo category topic now base maxRetries attempts remaining (a + 1) st'
      else st'
    | AttemptOutcome.yieldsRaises cs =>
      let res := processCandidates category topic now cs st.pins st.hashes
      let wait := if a < maxRetries - 1 then (a + 1) * base else 0
      scrapeGo category topic now base maxRetries attempts remaining (a + 1)
        { pins := res.1, hashes := res.2,
          attemptsMade := st.attemptsMade + 1, totalWait := st.totalWait + wait }

/-- `scrape_topic` for one topic: run the retry loop from attempt 0 with
empty `collected_pins` and the shared incoming hash set `hashes0`. -/
def scrape_topic_model (category topic now : String) (hashes0 : List String)
    (base maxRetries : Nat) (attempts : Nat → AttemptOutcome) : RetryState :=
  scrapeGo category topic now base maxRetries attempts maxRetries 0
    { pins := [], hashes := hashes0, attemptsMade := 0, totalWait := 0 }

/-- Total backoff sleep of a run whose every attempt fails, starting at
attempt index `a` with `r` iterations left. -/
def failWaits (base maxRetries : Nat) : Nat → Nat → Nat
  | 0, _ => 0
  | r + 1, a =>
    (if a < maxRetries - 1 then (a + 1) * base else 0) + failWaits base maxRetries r (a + 1)

theorem scrapeGo_all_fail (category topic now : String) (base maxRetries : Nat)
    (attempts : Nat → AttemptOutcome) (hfail : ∀ a, attempts a = AttemptOutcome.fails) :
    ∀ (r a : Nat) (st : RetryState),
    scrapeGo category topic now base maxRetries attempts r a st =
      { pins := st.pins, hashes := st.hashes,
        attemptsMade := st.attemptsMade + r,
        totalWait := st.totalWait + failWaits base maxRetries r a } := by
  intro r
  induction r with
  | zero => intro a st; simp [scrapeGo, failWaits]
  | succ m ih =>
    intro a st
    rw [scrapeGo, hfail a, ih (a + 1)]
    simp only [failWaits, RetryState.mk.injEq]
    refine ⟨trivial, trivial, by omega, by omega⟩

theorem failWaits_eq (base maxRetries : Nat) :
    ∀ r a, failWaits base maxRetries r a =
      ∑ i in Finset.range r, (if a + i < maxRetries - 1 then (a + i + 1) * base else 0) := by
  intro r
  induction r with
  | zero => intro a; simp [failWaits]
  | succ m ih =>
    intro a
    rw [failWaits, ih (a + 1), Finset.sum_range_succ']
    have hcongr : (∑ i in Finset.range m,
          if a + (i + 1) < maxRetries - 1 then (a + (i + 1) + 1) * base else 0)
        = ∑ i in Finset.range m,
          if a + 1 + i < maxRetries - 1 then (a + 1 + i + 1) * base else 0 := by
      refine Finset.sum_congr rfl fun i _ => ?_
      have hi : a + (i + 1) = a + 1 + i := by omega
      rw [hi]
    rw [hcongr]
    simp only [Nat.add_zero]
    omega

theorem failWaits_total (base mr : Nat) :
    failWaits base mr mr 0 = base * ∑ i in Finset.range mr, i := by
  rw [failWaits_eq]
  simp only [Nat.zero_add]
  cases mr with
  | zero => simp
  | succ m =>
    rw [Finset.sum_range_succ, Finset.sum_range_succ]
    have h1 : (∑ i in Finset.range m, if i < m + 1 - 1 then (i + 1) * base else 0)
        = ∑ i in Finset.range m, (i + 1) * base := by
      refine Finset.sum_congr rfl fun i hi => ?_
      rw [if_pos]
      simpa using Finset.mem_range.mp hi
    have h2 : ¬ (m < m + 1 - 1) := by omega
    rw [h1, if_neg h2]
    have h3 : (∑ i in Finset.range m, (i + 1) * base)
        = (∑ i in Finset.range m, i * base) + m * base := by
      simp [Nat.add_mul, Finset.sum_add_distrib, Finset.sum_const, Finset.card_range]
    rw [h3, Nat.mul_add, Finset.mul_sum]
    have h4 : ∀ x : Nat, base * x = x * base := fun x => Nat.mul_comm base x
    simp only [h4]
    omega

/-- **C3 counterexample**: with the defaults `maxRetries = 3` and
`backoffBase = 5`, an always-failing harvester does end exhausted after
exactly 3 attempts, but its total backoff sleep is 5 + 10 = 15 seconds —
there is no sleep after the final attempt — which is below the
`backoffBase × (1 + 2 + 3) = 30` bound asserted by the claim. -/
theorem claim_c3_counterexample :
    (scrape_topic_model "S" "t" "n" [] 5 3 (fun _ => AttemptOutcome.fails)).totalWait = 15 ∧
    (scrape_topic_model "S" "t" "n" [] 5 3 (fun _ => AttemptOutcome.fails)).attemptsMade = 3 ∧
    (scrape_topic_model "S" "t" "n" [] 5 3 (fun _ => AttemptOutcome.fails)).pins = [] ∧
    ¬ (15 ≥ 5 * (1 + 2 + 3)) :=
  ⟨by decide, by decide, by decide, by decide⟩

/-- **C3 (amended)**: a harvester whose every attempt fails transiently
ends exhausted (no pins) after exactly `maxRetries` attempts, sleeping
`backoffBase × (attempt + 1)` before each re-attempt, for a total backoff
of `backoffBase × (1 + 2 + ... + (maxRetries − 1))` — the loop does not
sleep after its final attempt. -/
theorem claim_c3_retry_exhaustion (category topic now : String) (hashes0 : List String)
    (base maxRetries : Nat) (attempts : Nat → AttemptOutcome)
    (hfail : ∀ a, attempts a = AttemptOutcome.fails) :
    (scrape_topic_model category topic now hashes0 base maxRetries attempts).attemptsMade
        = maxRetries ∧
    (scrape_topic_model category topic now hashes0 base maxRetries attempts).pins = [] ∧
    (scrape_topic_model category topic now hashes0 base maxRetries attempts).totalWait
        = base * ∑ i in Finset.range maxRetries, i := by
  rw [scrape_topic_model, scrapeGo_all_fail category topic now base maxRetries attempts hfail]
  exact ⟨by simp, rfl, by simpa using failWaits_total base maxRetries⟩

/-- Witness for C3 (amended) at the defaults: 3 attempts, 15 seconds. -/
theorem claim_c3_retry_exhaustion_witness :
    (scrape_topic_model "S" "t" "n" [] 5 3 (fun _ => AttemptOutcome.fails)).attemptsMade = 3 ∧
    (scrape_topic_model "S" "t" "n" [] 5 3 (fun _ => AttemptOutcome.fails)).totalWait
      = 5 * ∑ i in Finset.range 3, i := by
  have h := claim_c3_retry_exhaustion "S" "t" "n" [] 5 3
    (fun _ => AttemptOutcome.fails) (fun _ => rfl)
  exact ⟨h.1, h.2.2⟩

/-- The result lists of `processCandidates` extend their inputs; if no
record was appended, the hash set is unchanged too. -/
theorem process_extends (category topic now : String) :
    ∀ (cs : List Candidate) (pins : List PinData) (hs : List String),
    ∃ extraP extraH,
      (processCandidates category topic now cs pins hs).1 = pins ++ extraP ∧
      (processCandidates category topic now cs pins hs).2 = hs ++ extraH ∧
      (extraP = [] → extraH = []) := by
  intro cs
  induction cs with
  | nil =>
    intro pins hs
    exact ⟨[], [], by simp [processCandidates], by simp [processCandidates], fun _ => rfl⟩
  | cons c rest ih =>
    intro pins hs
    by_cases hg : c.img_src ≠ "" ∧ c.pin_id ≠ ""
    · by_cases hm : get_pin_hash c.pin_id ∈ hs
      · obtain ⟨eP, eH, h1, h2, h3⟩ := ih pins hs
        exact ⟨eP, eH, by simpa [processCandidates, hg, hm] using h1,
          by simpa [processCandidates, hg, hm] using h2, h3⟩
      · by_cases hsafe : is_text_safe c.title c.description
        · obtain ⟨eP, eH, h1, h2, h3⟩ := ih (pins ++ [mkPinData category topic now c])
            (hs ++ [get_pin_hash c.pin_id])
          refine ⟨mkPinData category topic now c :: eP, get_pin_hash c.pin_id :: eH,
            ?_, ?_, ?_⟩
          · rw [show processCandidates category topic now (c :: rest) pins hs =
                processCandidates category topic now rest
                  (pins ++ [mkPinData category topic now c])
                  (hs ++ [get_pin_hash c.pin_id]) from by
              simp [processCandidates, hg, hm, hsafe]]
            rw [h1]
            simp
          · rw [show processCandidates category topic now (c :: rest) pins hs =
                processCandidates category topic now rest
                  (pins ++ [mkPinData category topic now c])
                  (hs ++ [get_pin_hash c.pin_id]) from by
              simp [processCandidates, hg, hm, hsafe]]
            rw [h2]
            simp
          · intro hcontra
            simp at hcontra
        · obtain ⟨eP, eH, h1, h2, h3⟩ := ih pins hs
          exact ⟨eP, eH, by simpa [processCandidates, hg, hm, hsafe] using h1,
            by simpa [processCandidates, hg, hm, hsafe] using h2, h3⟩
    · obtain ⟨eP, eH, h1, h2, h3⟩ := ih pins hs
      exact ⟨eP, eH, by simpa [processCandidates, hg] using h1,
        by simpa [processCandidates, hg] using h2, h3⟩

/-- A collection attempt that starts with empty pins and accepts nothing
leaves the hash set unchanged. -/
theorem process_empty_state (category topic now : String) (cs : List Candidate)
    (hs : List String) (h : (processCandidates category topic now cs [] hs).1 = []) :
    processCandidates category topic now cs [] hs = ([], hs) := by
  obtain ⟨eP, eH, h1, h2, h3⟩ := process_extends category topic now cs [] hs
  simp only [List.nil_append] at h1
  have heP : eP = [] := h1 ▸ h
  have heH : eH = [] := h3 heP
  rw [Prod.ext_iff]
  exact ⟨h, by rw [h2, heH, List.append_nil]⟩

/-- An attempt that leaves the loop state unchanged when started from
empty pins: it raised before processing anything, or it processed its
candidates (raising afterwards or not) accepting zero records. -/
def attemptEmpty (category topic now : String) (hashes0 : List String) :
    AttemptOutcome → Prop
  | AttemptOutcome.fails => True
  | AttemptOutcome.yields cs => (processCandidates category topic now cs [] hashes0).1 = []
  | AttemptOutcome.yieldsRaises cs =>
    (processCandidates category topic now cs [] hashes0).1 = []

theorem scrapeGo_first_success (category topic now : String) (base maxRetries : Nat)
    (attempts : Nat → AttemptOutcome) (hashes0 : List String) (cs : List Candidate) :
    ∀ (j r a : Nat) (st : RetryState),
    st.pins = [] → st.hashes = hashes0 →
    j < r →
    (∀ i, i < j → attemptEmpty category topic now hashes0 (attempts (a + i))) →
    attempts (a + j) = AttemptOutcome.yields cs →
    (processCandidates category topic now cs [] hashes0).1 ≠ [] →
    (scrapeGo category topic now base maxRetries attempts r a st).pins =
        (processCandidates category topic now cs [] hashes0).1 ∧
    (scrapeGo category topic now base maxRetries attempts r a st).attemptsMade =
        st.attemptsMade + j + 1 := by
  intro j
  induction j with
  | zero =>
    intro r a st hp hh hjr hbef hy hne
    cases r with
    | zero => omega
    | succ m =>
      rw [Nat.add_zero] at hy
      simp only [scrapeGo, hy, hp, hh]
      rw [if_neg hne]
      exact ⟨rfl, by simp⟩
  | succ k ih =>
    intro r a st hp hh hjr hbef hy hne
    cases r with
    | zero => omega
    | succ m =>
      have h0 := hbef 0 (Nat.succ_pos k)
      rw [Nat.add_zero] at h0
      cases hcase : attempts a with
      | fails =>
        have hbef' : ∀ i, i < k →
            attemptEmpty category topic now hashes0 (attempts (a + 1 + i)) := by
          intro i hi
          have h2 := hbef (i + 1) (by omega)
          rwa [show a + (i + 1) = a + 1 + i from by omega] at h2
        have hy' : attempts (a + 1 + k) = AttemptOutcome.yields cs := by
          rw [show a + 1 + k = a + (k + 1) from by omega]
          exact hy
        have hrec := ih m (a + 1)
          { st with attemptsMade := st.attemptsMade + 1,
                    totalWait := st.totalWait +
                      if a < maxRetries - 1 then (a + 1) * base else 0 }
          hp hh (by omega) hbef' hy' hne
        constructor
        · rw [← hrec.1]
          simp [scrapeGo, hcase]
        · have h2 := hrec.2
          simp only [scrapeGo, hcase] at h2 ⊢
          omega
      | yields cs0 =>
        rw [hcase] at h0
        have h0' : (processCandidates category topic now cs0 [] hashes0).1 = [] := h0
        have hres : processCandidates category topic now cs0 st.pins st.hashes
            = ([], hashes0) := by
          rw [hp, hh]
          exact process_empty_state category topic now cs0 hashes0 h0'
        have hbef' : ∀ i, i < k →
            attemptEmpty category topic now hashes0 (attempts (a + 1 + i)) := by
          intro i hi
          have h2 := hbef (i + 1) (by omega)
          rwa [show a + (i + 1) = a + 1 + i from by omega] at h2
        have hy' : attempts (a + 1 + k) = AttemptOutcome.yields cs := by
          rw [show a + 1 + k = a + (k + 1) from by omega]
          exact hy
        have hrec := ih m (a + 1)
          { pins := ([] : List PinData), hashes := hashes0,
            attemptsMade := st.attemptsMade + 1, totalWait := st.totalWait }
          rfl rfl (by omega) hbef' hy' hne
        constructor
        · rw [← hrec.1]
          simp [scrapeGo, hcase, hres]
        · have h2 := hrec.2
          simp only [scrapeGo, hcase, hres] at h2 ⊢
          simp at h2 ⊢
          omega
      | yieldsRaises cs0 =>
        rw [hcase] at h0
        have h0' : (processCandidates category topic now cs0 [] hashes0).1 = [] := h0
        have hres : processCandidates category topic now cs0 st.pins st.hashes
            = ([], hashes0) := by
          rw [hp, hh]
          exact process_empty_state category topic now cs0 hashes0 h0'
        have hbef' : ∀ i, i < k →
            attemptEmpty category topic now hashes0 (attempts (a + 1 + i)) := by
          intro i hi
          have h2 := hbef (i + 1) (by omega)
          rwa [show a + (i + 1) = a + 1 + i from by omega] at h2
        have hy' : attempts (a + 1 + k) = AttemptOutcome.yields cs := by
          rw [show a + 1 + k = a + (k + 1) from by omega]
          exact hy
        have hrec := ih m (a + 1)
          { pins := ([] : List PinData), hashes := hashes0,
            attemptsMade := st.attemptsMade + 1,
            totalWait := st.totalWait +
              if a < maxRetries - 1 then (a + 1) * base else 0 }
          rfl rfl (by omega) hbef' hy' hne
        constructor
        · rw [← hrec.1]
          simp [scrapeGo, hcase, hres]
        · have h2 := hrec.2
          simp only [scrapeGo, hcase, hres] at h2 ⊢
          omega

/-- Records already in `collected_pins` are never discarded by later
attempts, whether those attempts complete, raise before processing, or
raise after processing: the final pin list extends the initial one. -/
theorem scrapeGo_pins_extend (category topic now : String) (base maxRetries : Nat)
    (attempts : Nat → AttemptOutcome) :
    ∀ (r a : Nat) (st : RetryState),
    ∃ extra, (scrapeGo category topic now base maxRetries attempts r a st).pins
      = st.pins ++ extra := by
  intro r
  induction r with
  | zero => intro a st; exact ⟨[], by simp [scrapeGo]⟩
  | succ m ih =>
    intro a st
    cases hcase : attempts a with
    | fails =>
      obtain ⟨e2, h2⟩ := ih (a + 1)
        { st with attemptsMade := st.attemptsMade + 1,
                  totalWait := st.totalWait +
                    if a < maxRetries - 1 then (a + 1) * base else 0 }
      exact ⟨e2, by simpa [scrapeGo, hcase] using h2⟩
    | yields cs =>
      obtain ⟨eP, eH, h1, _h2, _h3⟩ := process_extends category topic now cs st.pins st.hashes
      by_cases hres : (processCandidates category topic now cs st.pins st.hashes).1 = []
      · obtain ⟨e2, h2⟩ := ih (a + 1)
          { pins := (processCandidates category topic now cs st.pins st.hashes).1,
            hashes := (processCandidates category topic now cs st.pins st.hashes).2,
            attemptsMade := st.attemptsMade + 1, totalWait := st.totalWait }
        refine ⟨eP ++ e2, ?_⟩
        have hgoal : (scrapeGo category topic now base maxRetries attempts (m + 1) a st).pins
            = (scrapeGo category topic now base maxRetries attempts m (a + 1)
                { pins := (processCandidates category topic now cs st.pins st.hashes).1,
                  hashes := (processCandidates category topic now cs st.pins st.hashes).2,
                  attemptsMade := st.attemptsMade + 1, totalWait := st.totalWait }).pins := by
          simp [scrapeGo, hcase, hres]
        rw [hgoal, h2]
        simp only [h1, List.append_assoc]
      · refine ⟨eP, ?_⟩
        have hgoal : (scrapeGo category topic now base maxRetries attempts (m + 1) a st).pins
            = (processCandidates category topic now cs st.pins st.hashes).1 := by
          simp [scrapeGo, hcase, hres]
        rw [hgoal, h1]
    | yieldsRaises cs =>
      obtain ⟨eP, eH, h1, _h2, _h3⟩ := process_extends category topic now cs st.pins st.hashes
      obtain ⟨e2, h2⟩ := ih (a + 1)
        { pins := (processCandidates category topic now cs st.pins st.hashes).1,
          hashes := (processCandidates category topic now cs st.pins st.hashes).2,
          attemptsMade := st.attemptsMade + 1,
          totalWait := st.totalWait +
            if a < maxRetries - 1 then (a + 1) * base else 0 }
      refine ⟨eP ++ e2, ?_⟩
      have hgoal : (scrapeGo category topic now base maxRetries attempts (m + 1) a st).pins
          = (scrapeGo category topic now base maxRetries attempts m (a + 1)
              { pins := (processCandidates category topic now cs st.pins st.hashes).1,
                hashes := (processCandidates category topic now cs st.pins st.hashes).2,
                attemptsMade := st.attemptsMade + 1,
                totalWait := st.totalWait +
                  if a < maxRetries - 1 then (a + 1) * base else 0 }).pins := by
        simp [scrapeGo, hcase]
      rw [hgoal, h2]
      simp only [h1, List.append_assoc]

/-- **C9 (amended)**: once an attempt completes its collection phase and
reaches the break check at `main.py` lines 352-354 with at least one
accepted record, no further retry attempt is started: the harvester keeps
exactly those records and ends in Succeeded; and accepted records are
never discarded by later attempts.  The original claim's "for every
execution" fails, however: an attempt that accepts records and then
raises before the break check — e.g. `browser.close()` in the `finally`
at line 350 failing — reaches the handler at 356, which sleeps and starts
a further attempt with the accepted-record list already nonempty. -/
theorem claim_c9_partial_success (category topic now : String) (hashes0 : List String)
    (base maxRetries : Nat) (attempts : Nat → AttemptOutcome) (j : Nat)
    (cs : List Candidate)
    (hj : j < maxRetries)
    (hbefore : ∀ i, i < j → attemptEmpty category topic now hashes0 (attempts i))
    (hyield : attempts j = AttemptOutcome.yields cs)
    (hne : (processCandidates category topic now cs [] hashes0).1 ≠ []) :
    ((scrape_topic_model category topic now hashes0 base maxRetries attempts).pins =
        (processCandidates category topic now cs [] hashes0).1 ∧
      (scrape_topic_model category topic now hashes0 base maxRetries attempts).attemptsMade
        = j + 1) ∧
    (∀ (attempts2 : Nat → AttemptOutcome) (r a : Nat) (st : RetryState),
      ∃ extra, (scrapeGo category topic now base maxRetries attempts2 r a st).pins
        = st.pins ++ extra) := by
  have h := scrapeGo_first_success category topic now base maxRetries attempts hashes0 cs
    j maxRetries 0 { pins := [], hashes := hashes0, attemptsMade := 0, totalWait := 0 }
    rfl rfl hj (fun i hi => by simpa using hbefore i hi) (by simpa using hyield) hne
  exact ⟨⟨h.1, by simpa using h.2⟩,
    fun attempts2 => scrapeGo_pins_extend category topic now base maxRetries attempts2⟩

/-- Attempt schedule for the C9 witness: attempt 0 raises before
collecting, attempt 1 collects `demoCands`. -/
def attemptsDemo : Nat → AttemptOutcome :=
  fun n => if n = 0 then AttemptOutcome.fails else AttemptOutcome.yields demoCands

set_option maxRecDepth 8000 in
/-- Witness for C9 (amended): after a failed first attempt, the second
attempt accepts records and the loop stops at 2 attempts with those
records. -/
theorem claim_c9_partial_success_witness :
    (scrape_topic_model "STUDY" "library" "2024" [] 5 3 attemptsDemo).pins =
      (processCandidates "STUDY" "library" "2024" demoCands [] []).1 ∧
    (scrape_topic_model "STUDY" "library" "2024" [] 5 3 attemptsDemo).attemptsMade = 2 := by
  have h := claim_c9_partial_success "STUDY" "library" "2024" [] 5 3 attemptsDemo 1 demoCands
    (by omega)
    (by
      intro i hi
      have h0 : i = 0 := by omega
      subst h0
      simp [attemptsDemo, attemptEmpty])
    (by decide)
    (by decide)
  exact ⟨h.1.1, h.1.2⟩

/-- Attempt schedule for the C9 counterexample: attempt 0 accepts the
`demoCands` records and then raises in teardown; attempt 1 completes
without new candidates. -/
def attemptsTeardown : Nat → AttemptOutcome :=
  fun n => if n = 0 then AttemptOutcome.yieldsRaises demoCands
           else AttemptOutcome.yields []

set_option maxRecDepth 8000 in
/-- **C9 counterexample**: attempt 0 accepts two records and then an
exception escapes before the break check (`browser.close()` in the
`finally` at `main.py` line 350 raising, reaching the handler at 356):
the loop sleeps the 5-second backoff and starts attempt 1 even though the
accepted-record list is already nonempty — a further retry attempt after
a partial success, with backoff taken while the list is nonempty,
contradicting the claim as stated.  The records are retained and attempt
1 breaks immediately via the check at line 353. -/
theorem claim_c9_counterexample :
    (processCandidates "STUDY" "library" "2024" demoCands [] []).1 ≠ [] ∧
    (scrape_topic_model "STUDY" "library" "2024" [] 5 3 attemptsTeardown).attemptsMade = 2 ∧
    (scrape_topic_model "STUDY" "library" "2024" [] 5 3 attemptsTeardown).totalWait = 5 ∧
    (scrape_topic_model "STUDY" "library" "2024" [] 5 3 attemptsTeardown).pins =
      (processCandidates "STUDY" "library" "2024" demoCands [] []).1 := by
  refine ⟨?_, ?_, ?_, ?_⟩ <;> decide

/-! ## NSFWDetector (`src/nsfw_filter.py` lines 68-89) -/

/-- Behaviour of one invocation of the NudeNet-backed check (or of the
classifier call as a whole): it raises, or returns a verdict. -/
inductive BackendResult where
  | raises
  | verdict (isNsfw : Bool)
deriving DecidableEq, Repr

/-- `nsfw_filter.py` lines 68-89: `is_nsfw_from_bytes`.  First component:
the returned verdict; second component: whether the underlying detector
backend was invoked.  Empty (falsy) bytes short-circuit to safe (lines
81-83); a backend exception is caught and mapped to safe (lines 85-89). -/
def is_nsfw_from_bytes (backend : List Nat → BackendResult) (image_bytes : List Nat) :
    Bool × Bool :=
  if image_bytes.isEmpty then (false, false)
  else
    match backend image_bytes with
    | BackendResult.raises => (false, true)
    | BackendResult.verdict b => (b, true)

/-- **C10**: for the empty byte string — the only falsy `bytes` value —
`is_nsfw_from_bytes` returns False (safe) without invoking the underlying
detector backend, whatever that backend would do. -/
theorem claim_c10_empty_bytes_safe (backend : List Nat → BackendResult)
    (bs : List Nat) (h : bs.isEmpty = true) :
    is_nsfw_from_bytes backend bs = (false, false) := by
  rw [is_nsfw_from_bytes, if_pos h]

/-- Witness for C10 at the empty byte string and an always-raising (then
an always-unsafe) backend. -/
theorem claim_c10_empty_bytes_safe_witness :
    is_nsfw_from_bytes (fun _ => BackendResult.raises) [] = (false, false) ∧
    is_nsfw_from_bytes (fun _ => BackendResult.verdict true) [] = (false, false) :=
  ⟨claim_c10_empty_bytes_safe (fun _ => BackendResult.raises) [] rfl,
   claim_c10_empty_bytes_safe (fun _ => BackendResult.verdict true) [] rfl⟩

/-! ## AssetPipeline: `download_images_batch` (`main.py` lines 73-151) -/

/-- Behaviour of the image fetch (`session.get` + `response.read`,
`main.py` lines 109-115): the request raises, or returns a status code
with the body bytes. -/
inductive FetchResult where
  | raises
  | respond (status : Nat) (body : List Nat)
deriving DecidableEq, Repr

/-- Behaviour of `img_path.write_bytes` (`main.py` line 132). -/
inductive WriteResult where
  | ok
  | raises
deriving DecidableEq, Repr

/-- The environment one item's download runs against: whether its file
already exists, and how fetch, classifier and disk write behave. -/
structure ItemEnv where
  fileExists : Bool
  fetch : FetchResult
  classify : BackendResult
  write : WriteResult
deriving DecidableEq, Repr

/-- The dict `download_with_semaphore` returns for one item: the
`success` flag and whether `skipped` was set to `"NSFW"`. -/
structure DlResult where
  success : Bool
  skippedNSFW : Bool
deriving DecidableEq, Repr

/-- Per-item result plus instrumentation: whether a fetch was attempted
and whether bytes were written to disk. -/
structure ItemStep where
  result : DlResult
  fetched : Bool
  wrote : Bool
deriving DecidableEq, Repr

/-- `main.py` lines 93-138: `download_with_semaphore` for one pin.
Control flow as in the source: existing file returns before any network
call (98-99); a fetch exception is caught by the handler at 136-138;
non-200 returns a failure (110-112); with a detector configured the
classifier runs and an exception from it is caught at 127-129 and
treated as safe; an NSFW verdict returns `skipped="NSFW"` (124-126);
otherwise the bytes are written (131-134), a write exception again
landing in the handler at 136-138. -/
def download_with_semaphore (hasDetector : Bool) (env : ItemEnv) : ItemStep :=
  if env.fileExists then
    { result := { success := true, skippedNSFW := false }, fetched := false, wrote := false }
  else
    match env.fetch with
    | FetchResult.raises =>
      { result := { success := false, skippedNSFW := false }, fetched := true, wrote := false }
    | FetchResult.respond status _body =>
      if status ≠ 200 then
        { result := { success := false, skippedNSFW := false }, fetched := true, wrote := false }
      else
        let verdict : Option Bool :=
          if hasDetector then
            match env.classify with
            | BackendResult.raises => none
            | BackendResult.verdict b => some b
          else none
        if verdict = some true then
          { result := { success := false, skippedNSFW := true }, fetched := true, wrote := false }
        else
          match env.write with
          | WriteResult.ok =>
            { result := { success := true, skippedNSFW := false }, fetched := true, wrote := true }
          | WriteResult.raises =>
            { result := { success := false, skippedNSFW := false }, fetched := true, wrote := false }

/-- Behaviour of `NSFWDetector(threshold=...)` construction
(`nsfw_filter.py` lines 36-46 re-raise whatever `nudenet` raises). -/
inductive InitBehavior where
  | succeeds
  | raisesImportError
  | raisesOther
deriving DecidableEq, Repr

/-- `main.py` lines 73-151: `download_images_batch`.  `Except.error`
models an exception escaping the call.  Early return when image download
is disabled (75-76); detector initialization is guarded by
`except ImportError` ONLY (86-91), so a non-ImportError exception from
the constructor propagates; each item then yields one `ItemStep`. -/
def download_images_batch (downloadImages useNsfwDetector : Bool) (init : InitBehavior)
    (items : List ItemEnv) : Except Unit (List ItemStep) :=
  if downloadImages = false then Except.ok []
  else
    match (if useNsfwDetector then
             match init with
             | InitBehavior.succeeds => Except.ok true
             | InitBehavior.raisesImportError => Except.ok false
             | InitBehavior.raisesOther => Except.error ()
           else Except.ok false : Except Unit Bool) with
    | Except.error e => Except.error e
    | Except.ok hasDetector => Except.ok (items.map (download_with_semaphore hasDetector))

/-- **C5**: with the classifier configured, an item whose classifier call
raises is processed exactly as if the image had been scored safe; in
particular when the fetch returned HTTP 200 and the disk write succeeds,
the item's outcome is Saved (bytes written), never FailedFetch or
FilteredUnsafe. -/
theorem claim_c5_fail_open_saved (env : ItemEnv)
    (hex : env.fileExists = false) (hcl : env.classify = BackendResult.raises) :
    (download_with_semaphore true env =
      download_with_semaphore true { env with classify := BackendResult.verdict false }) ∧
    (∀ body, env.fetch = FetchResult.respond 200 body → env.write = WriteResult.ok →
      download_with_semaphore true env =
        { result := { success := true, skippedNSFW := false },
          fetched := true, wrote := true }) := by
  constructor
  · cases hf : env.fetch with
    | raises => simp [download_with_semaphore, hex, hcl, hf]
    | respond status body =>
      by_cases hst : status ≠ 200
      · simp [download_with_semaphore, hex, hcl, hf, hst]
      · cases hw : env.write <;>
          simp [download_with_semaphore, hex, hcl, hf, hst, hw]
  · intro body hf hw
    simp [download_with_semaphore, hex, hcl, hf, hw]

/-- Witness for C5: concrete item, fetch 200, classifier raising, write ok. -/
theorem claim_c5_fail_open_saved_witness :
    download_with_semaphore true
      { fileExists := false, fetch := FetchResult.respond 200 [7, 7],
        classify := BackendResult.raises, write := WriteResult.ok } =
    { result := { success := true, skippedNSFW := false }, fetched := true, wrote := true } :=
  (claim_c5_fail_open_saved
    { fileExists := false, fetch := FetchResult.respond 200 [7, 7],
      classify := BackendResult.raises, write := WriteResult.ok }
    rfl rfl).2 [7, 7] rfl rfl

/-- **C6 counterexample**: with the detector enabled, a non-ImportError
exception from detector initialization escapes `download_images_batch` —
only `ImportError` is caught at `main.py` lines 89-91 — so "the batch call
never raises past its boundary" is false for that failure. -/
theorem claim_c6_counterexample :
    download_images_batch true true InitBehavior.raisesOther
      [{ fileExists := false, fetch := FetchResult.raises,
         classify := BackendResult.raises, write := WriteResult.ok }] =
      Except.error () ∧
    download_images_batch true true InitBehavior.raisesImportError
      [{ fileExists := false, fetch := FetchResult.raises,
         classify := BackendResult.raises, write := WriteResult.ok }] ≠
      Except.error () :=
  ⟨rfl, by simp [download_images_batch]⟩

/-- **C6 (amended)**: `download_images_batch` never raises past its
boundary for any batch and per-item failure — fetch error, non-200
status, classifier failure, write error — and also survives a detector
initialization failure when that failure is an ImportError (the only kind
the code catches); a non-ImportError initialization exception, however,
propagates.  Under that proviso the call returns one captured outcome per
item. -/
theorem claim_c6_no_raise (downloadImages useNsfwDetector : Bool) (init : InitBehavior)
    (items : List ItemEnv)
    (h : ¬ (useNsfwDetector = true ∧ init = InitBehavior.raisesOther)) :
    ∃ results : List ItemStep,
      download_images_batch downloadImages useNsfwDetector init items
          = Except.ok results ∧
      (downloadImages = true → results.length = items.length) := by
  cases downloadImages with
  | false => exact ⟨[], rfl, by simp⟩
  | true =>
    cases useNsfwDetector with
    | false =>
      exact ⟨items.map (download_with_semaphore false), rfl, fun _ => by simp⟩
    | true =>
      cases init with
      | succeeds =>
        exact ⟨items.map (download_with_semaphore true), rfl, fun _ => by simp⟩
      | raisesImportError =>
        exact ⟨items.map (download_with_semaphore false), rfl, fun _ => by simp⟩
      | raisesOther => exact absurd ⟨rfl, rfl⟩ h

/-- Witness for C6 (amended): a batch of one item whose fetch, classifier
and write all fail, under an ImportError-failing detector init, still
returns a captured outcome. -/
theorem claim_c6_no_raise_witness :
    ∃ results : List ItemStep,
      download_images_batch true true InitBehavior.raisesImportError
          [{ fileExists := false, fetch := FetchResult.raises,
             classify := BackendResult.raises, write := WriteResult.raises }]
        = Except.ok results ∧
      (true = true → results.length =
        ([{ fileExists := false, fetch := FetchResult.raises,
            classify := BackendResult.raises, write := WriteResult.raises }] :
          List ItemEnv).length) :=
  claim_c6_no_raise true true InitBehavior.raisesImportError
    [{ fileExists := false, fetch := FetchResult.raises,
       classify := BackendResult.raises, write := WriteResult.raises }]
    (by simp)

/-! ## C7: idempotent re-run of the download over the same records -/

/-- Two successive runs of the per-item download over the same items with
the same output root: the second run sees a file exactly where the first
run found one or wrote one. -/
def runTwice (hasDetector : Bool) (items : List ItemEnv) : List ItemStep × List ItemStep :=
  (items.map (download_with_semaphore hasDetector),
   (items.map (fun e =>
      { e with fileExists :=
          e.fileExists || (download_with_semaphore hasDetector e).wrote })).map
     (download_with_semaphore hasDetector))

/-- `success = True` is returned exactly when the file already existed or
bytes were written: every failure path returns `success = False`. -/
theorem dws_success_iff (hasDetector : Bool) (e : ItemEnv) :
    (download_with_semaphore hasDetector e).result.success = true ↔
      e.fileExists = true ∨ (download_with_semaphore hasDetector e).wrote = true := by
  by_cases hex : e.fileExists
  · simp [download_with_semaphore, hex]
  · cases hf : e.fetch with
    | raises => simp [download_with_semaphore, hex, hf]
    | respond status body =>
      by_cases hst : status ≠ 200
      · simp [download_with_semaphore, hex, hf, hst]
      · by_cases hv : (if hasDetector then
            match e.classify with
            | BackendResult.raises => none
            | BackendResult.verdict b => some b
          else none) = some true
        · simp [download_with_semaphore, hex, hf, hst, hv]
        · cases hw : e.write <;>
            simp [download_with_semaphore, hex, hf, hst, hv, hw]

/-- An item whose first run succeeded is skipped by the second run before
any network call: no fetch, no write, plain success result. -/
theorem dws_second_run (hasDetector : Bool) (e : ItemEnv)
    (h : (download_with_semaphore hasDetector e).result.success = true) :
    download_with_semaphore hasDetector
      { e with fileExists := e.fileExists || (download_with_semaphore hasDetector e).wrote } =
    { result := { success := true, skippedNSFW := false },
      fetched := false, wrote := false } := by
  have h2 := (dws_success_iff hasDetector e).mp h
  have hfe : (e.fileExists || (download_with_semaphore hasDetector e).wrote) = true := by
    rcases h2 with h2 | h2 <;> simp [h2]
  rw [download_with_semaphore, if_pos hfe]

/-- **C7 (amended)**: when every item of the first run ends with
`success = True` (saved, or already on disk), a second run over the same
record set and output root performs no fetch and no write — on-disk files
unchanged, nothing re-fetched, each item returning before any network
call — and reports for every item the same plain success value the code
uses for a fresh save; the code has no distinct SkippedExisting outcome. -/
theorem claim_c7_idempotent_rerun (hasDetector : Bool) (items : List ItemEnv)
    (hok : ∀ e ∈ items, (download_with_semaphore hasDetector e).result.success = true) :
    (runTwice hasDetector items).2 = items.map (fun _ =>
      { result := { success := true, skippedNSFW := false },
        fetched := false, wrote := false }) := by
  induction items with
  | nil => rfl
  | cons e rest ih =>
    have he := hok e (List.mem_cons_self e rest)
    have hrest : ∀ x ∈ rest, (download_with_semaphore hasDetector x).result.success = true :=
      fun x hx => hok x (List.mem_cons_of_mem e hx)
    have ihh := ih hrest
    simp only [runTwice, List.map_cons] at ihh ⊢
    rw [dws_second_run hasDetector e he, ihh]

/-- The spec's `DownloadOutcome` values, stated from the spec's words for
comparison with the code's result type:
Saved / SkippedExisting / FailedFetch / FilteredUnsafe. -/
inductive DownloadOutcome where
  | saved
  | skippedExisting
  | failedFetch
  | filteredUnsafe
deriving DecidableEq, Repr

/-- A fresh item that downloads and saves successfully. -/
def itemFresh : ItemEnv :=
  { fileExists := false, fetch := FetchResult.respond 200 [1, 2, 3],
    classify := BackendResult.verdict false, write := WriteResult.ok }

/-- The same item as seen by a second run: its file now exists. -/
def itemExisting : ItemEnv :=
  { itemFresh with fileExists := true }

/-- **C7 counterexample**: the per-item value returned for an
already-saved item equals the value returned for a fresh save —
`{"success": True, "skipped": False}` in both cases (`main.py` lines 99
and 134) — so no assignment of the spec's outcomes to the code's results
can report `SkippedExisting` for the second run and `Saved` for a fresh
save; the "reports SkippedExisting for every item" part of the claim is
false on the code. -/
theorem claim_c7_counterexample :
    (download_with_semaphore false itemExisting).result =
      (download_with_semaphore false itemFresh).result ∧
    ¬ ∃ f : DlResult → DownloadOutcome,
        f (download_with_semaphore false itemExisting).result =
          DownloadOutcome.skippedExisting ∧
        f (download_with_semaphore false itemFresh).result = DownloadOutcome.saved := by
  refine ⟨by decide, ?_⟩
  rintro ⟨f, h1, h2⟩
  have he : (download_with_semaphore false itemExisting).result =
      (download_with_semaphore false itemFresh).result := by decide
  rw [he] at h1
  have hcontra : DownloadOutcome.skippedExisting = DownloadOutcome.saved :=
    h1.symm.trans h2
  exact absurd hcontra (by decide)

/-- Witness for C7 (amended): a singleton batch whose item saves on the
first run is skipped wholesale on the second. -/
theorem claim_c7_idempotent_rerun_witness :
    (runTwice false [itemFresh]).2 = [itemFresh].map (fun _ =>
      { result := { success := true, skippedNSFW := false },
        fetched := false, wrote := false }) :=
  claim_c7_idempotent_rerun false [itemFresh] (by decide)

/-! ## Scheduler and semaphores (`main.py` lines 81, 94, 417-453).

`scrape_all_topics` creates ONE topic semaphore of size
`max_concurrent_topics` for the whole run (line 417), but
`download_images_batch` creates a NEW download semaphore of size
`max_concurrent_downloads` on EVERY call (line 81) — one per topic batch.
The state machine below models exactly that structure: a list holding the
in-flight download count of each currently active batch. -/

/-- Scheduler actions: a topic task enters its download batch (taking a
topic slot), a download starts or finishes inside batch `i`, or batch `i`
ends once its downloads drained (releasing its slot). -/
inductive DlAction where
  | startBatch
  | startDl (i : Nat)
  | finishDl (i : Nat)
  | endBatch (i : Nat)
deriving DecidableEq, Repr

/-- One transition: `T` is the topic-semaphore size, `k` the size of each
batch's own download semaphore.  `none` means the action is not enabled
(the semaphore would block). -/
def dlStep (T k : Nat) (s : List Nat) : DlAction → Option (List Nat)
  | DlAction.startBatch => if s.length < T then some (s ++ [0]) else none
  | DlAction.startDl i =>
    match s[i]? with
    | some c => if c < k then some (s.set i (c + 1)) else none
    | none => none
  | DlAction.finishDl i =>
    match s[i]? with
    | some c => if 0 < c then some (s.set i (c - 1)) else none
    | none => none
  | DlAction.endBatch i =>
    if s[i]? = some 0 then some (s.eraseIdx i) else none

/-- Execute a sequence of enabled actions from a given state. -/
def dlRunFrom (T k : Nat) : List Nat → List DlAction → Option (List Nat)
  | s, [] => some s
  | s, act :: rest =>
    match dlStep T k s act with
    | some s2 => dlRunFrom T k s2 rest
    | none => none

/-- Execute a sequence of actions from the empty run state. -/
def dlRun (T k : Nat) (acts : List DlAction) : Option (List Nat) :=
  dlRunFrom T k [] acts

/-- **C2 counterexample**: with the default `maxConcurrentTopics = 3` and
`maxConcurrentDownloads = k = 1`, two concurrently active topic batches
each acquire a permit from their OWN download semaphore (`main.py` line
81 creates it inside `download_images_batch`), reaching a state with
2 > k fetches in flight across the run — the budget is not a single
global one. -/
theorem claim_c2_counterexample :
    dlRun 3 1 [DlAction.startBatch, DlAction.startBatch,
               DlAction.startDl 0, DlAction.startDl 1] = some [1, 1] ∧
    ([1, 1] : List Nat).sum = 2 ∧ ¬ (2 ≤ 1) := by
  refine ⟨by decide, by decide, by decide⟩

theorem dlStep_inv (T k : Nat) (s s1 : List Nat) (act : DlAction)
    (h1 : s.length ≤ T) (h2 : ∀ c ∈ s, c ≤ k)
    (hs : dlStep T k s act = some s1) :
    s1.length ≤ T ∧ (∀ c ∈ s1, c ≤ k) := by
  cases act with
  | startBatch =>
    rw [dlStep] at hs
    by_cases hlen : s.length < T
    · rw [if_pos hlen] at hs
      injection hs with hs
      subst hs
      constructor
      · simpa using hlen
      · intro c hc
        rcases List.mem_append.mp hc with hc | hc
        · exact h2 c hc
        · simp only [List.mem_singleton] at hc
          omega
    · rw [if_neg hlen] at hs
      exact absurd hs (by simp)
  | startDl i =>
    rw [dlStep] at hs
    cases hgi : s[i]? with
    | none => rw [hgi] at hs; exact absurd hs (by simp)
    | some c =>
      rw [hgi] at hs
      dsimp only at hs
      by_cases hck : c < k
      · rw [if_pos hck] at hs
        injection hs with hs
        subst hs
        constructor
        · simpa using h1
        · intro x hx
          rcases List.mem_or_eq_of_mem_set hx with hx | hx
          · exact h2 x hx
          · omega
      · rw [if_neg hck] at hs
        exact absurd hs (by simp)
  | finishDl i =>
    rw [dlStep] at hs
    cases hgi : s[i]? with
    | none => rw [hgi] at hs; exact absurd hs (by simp)
    | some c =>
      rw [hgi] at hs
      dsimp only at hs
      by_cases hc0 : 0 < c
      · rw [if_pos hc0] at hs
        injection hs with hs
        subst hs
        have hck : c ≤ k := h2 c (List.getElem?_mem hgi)
        constructor
        · simpa using h1
        · intro x hx
          rcases List.mem_or_eq_of_mem_set hx with hx | hx
          · exact h2 x hx
          · omega
      · rw [if_neg hc0] at hs
        exact absurd hs (by simp)
  | endBatch i =>
    rw [dlStep] at hs
    by_cases hz : s[i]? = some 0
    · rw [if_pos hz] at hs
      injection hs with hs
      subst hs
      have hsub := List.eraseIdx_sublist s i
      exact ⟨le_trans hsub.length_le h1, fun c hc => h2 c (hsub.subset hc)⟩
    · rw [if_neg hz] at hs
      exact absurd hs (by simp)

theorem dlRunFrom_inv (T k : Nat) :
    ∀ (acts : List DlAction) (s s2 : List Nat),
    s.length ≤ T → (∀ c ∈ s, c ≤ k) →
    dlRunFrom T k s acts = some s2 →
    s2.length ≤ T ∧ (∀ c ∈ s2, c ≤ k) := by
  intro acts
  induction acts with
  | nil =>
    intro s s2 h1 h2 he
    rw [dlRunFrom] at he
    injection he with he
    subst he
    exact ⟨h1, h2⟩
  | cons act rest ih =>
    intro s s2 h1 h2 he
    rw [dlRunFrom] at he
    cases hstep : dlStep T k s act with
    | none => rw [hstep] at he; exact absurd he (by simp)
    | some s1 =>
      rw [hstep] at he
      have hinv := dlStep_inv T k s s1 act h1 h2 hstep
      exact ih s1 s2 hinv.1 hinv.2 he

/-- **C2 (amended)**: every reachable state of the run keeps at most
`maxConcurrentTopics` batches active and at most `k` downloads in flight
PER BATCH — `maxConcurrentDownloads` is a per-topic-batch budget, not a
global one — so the global number of in-flight fetches is bounded only by
`maxConcurrentTopics × maxConcurrentDownloads`, not by `k`. -/
theorem claim_c2_download_bound (T k : Nat) (acts : List DlAction) (s : List Nat)
    (h : dlRun T k acts = some s) :
    s.length ≤ T ∧ (∀ c ∈ s, c ≤ k) ∧ s.sum ≤ T * k := by
  have hinv := dlRunFrom_inv T k acts [] s (by simp) (by simp) h
  refine ⟨hinv.1, hinv.2, ?_⟩
  have hb := List.sum_le_card_nsmul s k hinv.2
  rw [smul_eq_mul] at hb
  exact le_trans hb (Nat.mul_le_mul_right k hinv.1)

/-- Witness for C2 (amended): the defaults `T = 3`, `k = 10`, one batch
with one download in flight. -/
theorem claim_c2_download_bound_witness :
    dlRun 3 10 [DlAction.startBatch, DlAction.startDl 0] = some [1] ∧
    (([1] : List Nat).length ≤ 3 ∧ (∀ c ∈ ([1] : List Nat), c ≤ 10) ∧
      ([1] : List Nat).sum ≤ 3 * 10) :=
  ⟨by decide,
   claim_c2_download_bound 3 10 [DlAction.startBatch, DlAction.startDl 0] [1] (by decide)⟩

end PinterestSearch
